import Mathlib

/-!
Verification of the Bounan.Matcher batch matching pipeline.

Shallow embedding of the repository's Python sources:
  * Matcher/scenes_finder/find_scenes.py
  * Matcher/scenes_finder/audio_provider.py
  * Matcher/main.py
  * Matcher/clients/animan_client.py

Modelling conventions:
  * Python floats appearing as interval bounds (raw recognition guesses may be
    NaN or infinite) are modelled by `PFloat`: NaN, signed infinity, or an
    exact rational.  IEEE comparison/arithmetic on the NaN/infinity cases is
    modelled exactly; finite arithmetic is exact rational arithmetic.
  * Manifest segment durations and playlist totals are ordinary rationals.
  * External collaborators (the loan-api manifest fetch and the recognition
    library) are parameters of the embedded functions.
-/

namespace Matcher

/-- Model of a Python float as it is used by the reconciler: NaN, a signed
infinity (`inf true` is +inf), or an exact finite value. -/
inductive PFloat where
  | nan : PFloat
  | inf : Bool → PFloat
  | fin : ℚ → PFloat
deriving DecidableEq, Repr

namespace PFloat

/-- Python math.isnan. -/
def isnan : PFloat → Bool
  | nan => true
  | _ => false

/-- True exactly for finite values (neither NaN nor infinite). -/
def isFinite : PFloat → Bool
  | fin _ => true
  | _ => false

/-- IEEE subtraction restricted to the cases the reconciler exercises. -/
def sub : PFloat → PFloat → PFloat
  | nan, _ => nan
  | _, nan => nan
  | inf a, inf b => if a = b then nan else inf a
  | inf a, fin _ => inf a
  | fin _, inf b => inf (!b)
  | fin a, fin b => fin (a - b)

/-- IEEE addition restricted to the cases the reconciler exercises. -/
def add : PFloat → PFloat → PFloat
  | nan, _ => nan
  | _, nan => nan
  | inf a, inf b => if a = b then inf a else nan
  | inf a, fin _ => inf a
  | fin _, inf b => inf b
  | fin a, fin b => fin (a + b)

/-- IEEE strict order: any comparison with NaN is false. -/
def lt : PFloat → PFloat → Bool
  | nan, _ => false
  | _, nan => false
  | inf a, inf b => !a && b
  | inf a, fin _ => !a
  | fin _, inf b => b
  | fin a, fin b => decide (a < b)

/-- IEEE non-strict order: any comparison with NaN is false. -/
def le : PFloat → PFloat → Bool
  | nan, _ => false
  | _, nan => false
  | inf a, inf b => !a || b
  | inf a, fin _ => !a
  | fin _, inf b => b
  | fin a, fin b => decide (a ≤ b)

/-- Python `x > y`. -/
def gt (a b : PFloat) : Bool := lt b a

/-- Python `x >= y`. -/
def ge (a b : PFloat) : Bool := le b a

/-- Python abs on a float. -/
def pabs : PFloat → PFloat
  | nan => nan
  | inf _ => inf true
  | fin q => fin |q|

/-- Halving, used by the median of an even-sized sample. -/
def half : PFloat → PFloat
  | nan => nan
  | inf b => inf b
  | fin q => fin (q / 2)

end PFloat

/-- VideoKey from Common.py.models. Modelled from the spec: `{ seriesId:
integer, dub: string, episode: integer }`, equality by all three fields
(the Common submodule is not part of the staged sources). -/
structure VideoKey where
  myAnimeListId : ℤ
  dub : String
  episode : ℤ
deriving DecidableEq, Repr

/-- Interval from Common.py.models. Modelled from the spec: a detected scene
span with two float bounds (raw guesses may carry NaN/non-finite bounds,
hence `PFloat`). -/
structure PInterval where
  start : PFloat
  stop : PFloat
deriving DecidableEq, Repr

/-- Scenes from Common.py.models. Modelled from the spec: `{ opening:
Interval?, ending: Interval?, sceneAfterEnding: Interval? }`. -/
structure Scenes where
  opening : Option PInterval
  ending : Option PInterval
  sceneAfterEnding : Option PInterval
deriving DecidableEq, Repr

/-- Scenes(None, None, None): the all-absent fallback record. -/
def allAbsent : Scenes := ⟨none, none, none⟩

/-- find_scenes.py _valid_or_none: keep the scene only when neither bound is
NaN and `end - start >= min_scene_length_secs` under IEEE comparison. -/
def validOrNone (minSceneLength : ℚ) (scene : Option PInterval) : Option PInterval :=
  match scene with
  | none => none
  | some s =>
      if !s.start.isnan && !s.stop.isnan && (s.stop.sub s.start).ge (PFloat.fin minSceneLength)
      then some s
      else none

/-- find_scenes.py _combine_scenes: validate opening and ending, then either
carve out the scene after the ending or extend the ending to the end of the
video; the scene after the ending is validated again before being emitted. -/
def combineScenes (minSceneLength threshold : ℚ) (opening ending : PInterval)
    (totalDuration : ℚ) : Scenes :=
  let newOpening := validOrNone minSceneLength (some opening)
  let newEnding := validOrNone minSceneLength (some ending)
  match newEnding with
  | none => ⟨newOpening, none, validOrNone minSceneLength none⟩
  | some ne =>
      if ((PFloat.fin totalDuration).sub ne.stop).gt (PFloat.fin threshold) then
        ⟨newOpening, some ne, validOrNone minSceneLength (some ⟨ne.stop, PFloat.fin totalDuration⟩)⟩
      else
        ⟨newOpening, some ⟨ne.start, PFloat.fin totalDuration⟩, validOrNone minSceneLength none⟩

/-- Python round-half-to-even of a rational to an integer (round(x) with the
binary-representation artefacts of real floats idealised away). -/
def roundHalfEven (q : ℚ) : ℤ :=
  let f : ℤ := ⌊q⌋
  let frac : ℚ := q - f
  if frac < 1 / 2 then f
  else if 1 / 2 < frac then f + 1
  else if f % 2 = 0 then f else f + 1

/-- Python round(x, 2) on a float. -/
def PFloat.round2 : PFloat → PFloat
  | PFloat.nan => PFloat.nan
  | PFloat.inf b => PFloat.inf b
  | PFloat.fin q => PFloat.fin ((roundHalfEven (q * 100) : ℚ) / 100)

/-- find_scenes.py _round_scene. -/
def roundScene : Option PInterval → Option PInterval
  | none => none
  | some s => some ⟨s.start.round2, s.stop.round2⟩

/-- find_scenes.py _round_scenes. -/
def roundScenes (s : Scenes) : Scenes :=
  ⟨roundScene s.opening, roundScene s.ending, roundScene s.sceneAfterEnding⟩

/-- The discarding condition the code actually implements in _valid_or_none:
a NaN bound, or the IEEE comparison `end - start >= minSceneLength` failing. -/
def discardedByCode (minSceneLength : ℚ) (s : PInterval) : Prop :=
  s.start.isnan = true ∨ s.stop.isnan = true ∨
    (s.stop.sub s.start).ge (PFloat.fin minSceneLength) = false

instance (minSceneLength : ℚ) (s : PInterval) :
    Decidable (discardedByCode minSceneLength s) := by
  unfold discardedByCode; infer_instance

/-- Claim C6 (amended): _valid_or_none discards an interval exactly when one
of its bounds is NaN or the IEEE comparison `end - start >= minSceneLength`
fails (which also discards an interval whose bounds are equal infinities);
otherwise it returns the interval unchanged, and None maps to None.  Bounds
that are infinite but not NaN are not by themselves grounds for discarding. -/
theorem validOrNone_characterisation (minSceneLength : ℚ) (s : PInterval) :
    (validOrNone minSceneLength none = none) ∧
    (validOrNone minSceneLength (some s) = none ↔ discardedByCode minSceneLength s) ∧
    (¬ discardedByCode minSceneLength s → validOrNone minSceneLength (some s) = some s) := by
  refine ⟨rfl, ?_, ?_⟩
  · cases h1 : s.start.isnan <;> cases h2 : s.stop.isnan <;>
      cases h3 : (s.stop.sub s.start).ge (PFloat.fin minSceneLength) <;>
      simp [validOrNone, discardedByCode, h1, h2, h3]
  · intro h
    cases h1 : s.start.isnan <;> cases h2 : s.stop.isnan <;>
      cases h3 : (s.stop.sub s.start).ge (PFloat.fin minSceneLength) <;>
      simp [discardedByCode, h1, h2, h3] at h ⊢ <;>
      simp [validOrNone, h1, h2, h3]

/-- Claim C6 counterexample: the interval (0, +inf) has a non-finite bound,
so the claim says it is discarded; the code only tests NaN and keeps it
(0 ≤ +inf - 0 and the difference is +inf ≥ 20). -/
theorem validOrNone_keeps_infinite_bound :
    validOrNone 20 (some ⟨PFloat.fin 0, PFloat.inf true⟩) =
      some ⟨PFloat.fin 0, PFloat.inf true⟩ ∧
    (PFloat.inf true).isFinite = false := by
  constructor <;> rfl

/-- Claim C6 witness: an ordinary finite 30-second interval passes the filter
unchanged for minSceneLength = 20. -/
theorem validOrNone_finite_witness :
    validOrNone 20 (some ⟨PFloat.fin 0, PFloat.fin 30⟩) =
      some ⟨PFloat.fin 0, PFloat.fin 30⟩ :=
  (validOrNone_characterisation 20 ⟨PFloat.fin 0, PFloat.fin 30⟩).2.2 (by
    norm_num [discardedByCode, PFloat.isnan, PFloat.sub, PFloat.ge, PFloat.le])

/-- Claim C5: for a valid corrected ending, when the tail gap
`totalDuration - ending.end` exceeds the threshold the scene after the ending
is `Interval(ending.end, totalDuration)` (re-validated before emission) and
the ending is unchanged; otherwise the ending is extended to
`Interval(ending.start, totalDuration)` and the scene after the ending is
absent.  When the ending is invalid both fields are absent. -/
theorem combineScenes_ending_cases (minSceneLength threshold totalDuration : ℚ)
    (opening ending : PInterval) :
    (validOrNone minSceneLength (some ending) = some ending →
      (((PFloat.fin totalDuration).sub ending.stop).gt (PFloat.fin threshold) = true →
        (combineScenes minSceneLength threshold opening ending totalDuration).ending
            = some ending ∧
        (combineScenes minSceneLength threshold opening ending totalDuration).sceneAfterEnding
            = validOrNone minSceneLength (some ⟨ending.stop, PFloat.fin totalDuration⟩)) ∧
      (((PFloat.fin totalDuration).sub ending.stop).gt (PFloat.fin threshold) = false →
        (combineScenes minSceneLength threshold opening ending totalDuration).ending
            = some ⟨ending.start, PFloat.fin totalDuration⟩ ∧
        (combineScenes minSceneLength threshold opening ending totalDuration).sceneAfterEnding
            = none)) ∧
    (validOrNone minSceneLength (some ending) = none →
      (combineScenes minSceneLength threshold opening ending totalDuration).ending = none ∧
      (combineScenes minSceneLength threshold opening ending totalDuration).sceneAfterEnding
          = none) := by
  constructor
  · intro hv
    constructor
    · intro hgt
      simp only [combineScenes, hv, hgt]
      simp
    · intro hgt
      simp only [combineScenes, hv, hgt]
      simp
      rfl
  · intro hv
    simp only [combineScenes, hv]
    simp
    rfl

/-- Claim C5 witness, the spec's own example: totalDuration 1200, valid
ending (1150, 1180), threshold 4: the tail gap 20 exceeds 4, so the scene
after the ending is (1180, 1200) (which survives re-validation at
minSceneLength 20) and the ending is unchanged. -/
theorem combineScenes_example :
    (combineScenes 20 4 ⟨PFloat.nan, PFloat.nan⟩ ⟨PFloat.fin 1150, PFloat.fin 1180⟩ 1200).ending
        = some ⟨PFloat.fin 1150, PFloat.fin 1180⟩ ∧
    (combineScenes 20 4 ⟨PFloat.nan, PFloat.nan⟩ ⟨PFloat.fin 1150, PFloat.fin 1180⟩ 1200).sceneAfterEnding
        = some ⟨PFloat.fin 1180, PFloat.fin 1200⟩ := by
  have hv : validOrNone 20 (some ⟨PFloat.fin 1150, PFloat.fin 1180⟩)
      = some ⟨PFloat.fin 1150, PFloat.fin 1180⟩ := by
    norm_num [validOrNone, PFloat.isnan, PFloat.sub, PFloat.ge, PFloat.le]
  have hgt : ((PFloat.fin 1200).sub (PInterval.mk (PFloat.fin 1150) (PFloat.fin 1180)).stop).gt
      (PFloat.fin 4) = true := by
    norm_num [PFloat.sub, PFloat.gt, PFloat.lt]
  have h := (combineScenes_ending_cases 20 4 1200 ⟨PFloat.nan, PFloat.nan⟩
    ⟨PFloat.fin 1150, PFloat.fin 1180⟩).1 hv |>.1 hgt
  refine ⟨h.1, h.2.trans ?_⟩
  norm_num [validOrNone, PFloat.isnan, PFloat.sub, PFloat.ge, PFloat.le]

/-- One HLS media segment: its absolute URI and its duration in seconds.
The m3u8 library's parsed playlist is modelled by its segment list; the
not_none helper of the source is rendered by both fields being present. -/
structure Segment where
  absoluteUri : String
  duration : ℚ
deriving DecidableEq, Repr

/-- A parsed media playlist (m3u8.M3U8), reduced to its segment list. -/
abbrev Playlist := List Segment

/-- The selection loop of audio_provider.py _build_segments_list: walk the
iteration list, keep every segment walked, accumulate durations, and break
as soon as the running total reaches seconds_to_match. -/
def selectSegments (secondsToMatch : ℚ) (acc : ℚ) : List Segment → List Segment × ℚ
  | [] => ([], acc)
  | s :: rest =>
      let acc' := acc + s.duration
      if secondsToMatch ≤ acc' then ([s], acc')
      else
        let r := selectSegments secondsToMatch acc' rest
        (s :: r.1, r.2)

/-- audio_provider.py _build_segments_list: scan the playlist forwards for an
opening and backwards (`reversed(playlist.segments)`) for an ending; the URI
list built by append (opening) or insert-at-0 (ending) is the selection in
original playlist order, so the ending selection is reversed back. -/
def buildSegmentsList (secondsToMatch : ℚ) (playlist : Playlist) (opening : Bool) :
    List String × ℚ :=
  let segmentIter := if opening then playlist else playlist.reverse
  let r := selectSegments secondsToMatch 0 segmentIter
  ((if opening then r.1 else r.1.reverse).map (fun s => s.absoluteUri), r.2)

/-- Position (1-based count) of the segment at which the accumulated duration
first reaches the threshold, or the whole length when it never does. -/
def firstReach (secondsToMatch acc : ℚ) : List Segment → ℕ
  | [] => 0
  | s :: rest =>
      if secondsToMatch ≤ acc + s.duration then 1
      else firstReach secondsToMatch (acc + s.duration) rest + 1

theorem selectSegments_eq (stm : ℚ) (l : List Segment) :
    ∀ acc : ℚ,
      selectSegments stm acc l =
        (l.take (firstReach stm acc l),
         acc + ((l.take (firstReach stm acc l)).map (fun s => s.duration)).sum) := by
  induction l with
  | nil => intro acc; simp [selectSegments, firstReach]
  | cons s rest ih =>
      intro acc
      by_cases h : stm ≤ acc + s.duration
      · simp [selectSegments, firstReach, h]
      · simp [selectSegments, firstReach, h, ih (acc + s.duration)]
        ring

theorem firstReach_le_length (stm : ℚ) (l : List Segment) :
    ∀ acc : ℚ, firstReach stm acc l ≤ l.length := by
  induction l with
  | nil => intro acc; simp [firstReach]
  | cons s rest ih =>
      intro acc
      by_cases h : stm ≤ acc + s.duration <;> simp [firstReach, h]
      exact ih (acc + s.duration)

theorem firstReach_pos (stm : ℚ) (l : List Segment) (acc : ℚ) (hl : l ≠ []) :
    1 ≤ firstReach stm acc l := by
  cases l with
  | nil => exact absurd rfl hl
  | cons s rest =>
      by_cases h : stm ≤ acc + s.duration <;> simp [firstReach, h]

theorem firstReach_prefix_lt (stm : ℚ) (l : List Segment) :
    ∀ acc : ℚ, ∀ j : ℕ, 1 ≤ j → j < firstReach stm acc l →
      acc + ((l.take j).map (fun s => s.duration)).sum < stm := by
  induction l with
  | nil => intro acc j _ hj; simp [firstReach] at hj
  | cons s rest ih =>
      intro acc j hj1 hj2
      by_cases h : stm ≤ acc + s.duration
      · simp [firstReach, h] at hj2
        omega
      · simp only [firstReach, if_neg h] at hj2
        match j, hj1 with
        | 1, _ =>
            simpa using lt_of_not_le h
        | j + 2, _ =>
            have := ih (acc + s.duration) (j + 1) (by omega) (by omega)
            simp only [List.take_succ_cons, List.map_cons, List.sum_cons]
            linarith

theorem firstReach_crossed (stm : ℚ) (l : List Segment) :
    ∀ acc : ℚ, firstReach stm acc l < l.length →
      stm ≤ acc + ((l.take (firstReach stm acc l)).map (fun s => s.duration)).sum := by
  induction l with
  | nil => intro acc h; simp [firstReach] at h
  | cons s rest ih =>
      intro acc h
      by_cases hc : stm ≤ acc + s.duration
      · simpa [firstReach, hc] using hc
      · simp only [firstReach, if_neg hc, List.length_cons, Nat.add_lt_add_iff_right] at h
        have := ih (acc + s.duration) h
        simp only [firstReach, if_neg hc, List.take_succ_cons, List.map_cons, List.sum_cons]
        linarith

/-- Claim C10: the built segment-URI list is the contiguous prefix (leading
scan) or contiguous suffix (trailing scan) of the playlist, in original
playlist order, obtained by accumulating durations until the total reaches
seconds_to_match or the segments run out; the returned duration is the sum
of the selected segments' durations.  `firstReach` names the cut point; the
final five conjuncts say it is exactly the accumulate-until-reached point. -/
theorem buildSegmentsList_prefix_suffix (stm : ℚ) (segs : Playlist) :
    (buildSegmentsList stm segs true).1
        = ((segs.take (firstReach stm 0 segs)).map (fun s => s.absoluteUri)) ∧
    (buildSegmentsList stm segs true).2
        = ((segs.take (firstReach stm 0 segs)).map (fun s => s.duration)).sum ∧
    (buildSegmentsList stm segs false).1
        = ((segs.drop (segs.length - firstReach stm 0 segs.reverse)).map
            (fun s => s.absoluteUri)) ∧
    (buildSegmentsList stm segs false).2
        = ((segs.drop (segs.length - firstReach stm 0 segs.reverse)).map
            (fun s => s.duration)).sum ∧
    firstReach stm 0 segs ≤ segs.length ∧
    firstReach stm 0 segs.reverse ≤ segs.length ∧
    (segs ≠ [] → 1 ≤ firstReach stm 0 segs ∧ 1 ≤ firstReach stm 0 segs.reverse) ∧
    (∀ j, 1 ≤ j → j < firstReach stm 0 segs →
      ((segs.take j).map (fun s => s.duration)).sum < stm) ∧
    (firstReach stm 0 segs < segs.length →
      stm ≤ ((segs.take (firstReach stm 0 segs)).map (fun s => s.duration)).sum) ∧
    (∀ j, 1 ≤ j → j < firstReach stm 0 segs.reverse →
      ((segs.drop (segs.length - j)).map (fun s => s.duration)).sum < stm) ∧
    (firstReach stm 0 segs.reverse < segs.length →
      stm ≤ ((segs.drop (segs.length - firstReach stm 0 segs.reverse)).map
        (fun s => s.duration)).sum) := by
  have hrev : ∀ j : ℕ, segs.reverse.take j = (segs.drop (segs.length - j)).reverse :=
    fun j => List.take_reverse
  have hsum : ∀ j : ℕ,
      ((segs.reverse.take j).map (fun s => s.duration)).sum
        = ((segs.drop (segs.length - j)).map (fun s => s.duration)).sum := by
    intro j
    rw [hrev j, List.map_reverse, List.sum_reverse]
  refine ⟨?_, ?_, ?_, ?_, firstReach_le_length stm segs 0, ?_, ?_, ?_, ?_, ?_, ?_⟩
  · simp [buildSegmentsList, selectSegments_eq]
  · simp [buildSegmentsList, selectSegments_eq]
  · simp only [buildSegmentsList, selectSegments_eq, Bool.false_eq_true, if_false]
    rw [hrev]
    simp [List.map_reverse]
  · simp only [buildSegmentsList, selectSegments_eq, Bool.false_eq_true, if_false]
    simpa using hsum (firstReach stm 0 segs.reverse)
  · simpa using firstReach_le_length stm segs.reverse 0
  · intro h
    refine ⟨firstReach_pos stm segs 0 h, firstReach_pos stm segs.reverse 0 ?_⟩
    simpa using h
  · intro j hj1 hj2
    simpa using firstReach_prefix_lt stm segs 0 j hj1 hj2
  · intro h
    simpa using firstReach_crossed stm segs 0 h
  · intro j hj1 hj2
    have := firstReach_prefix_lt stm segs.reverse 0 j hj1 hj2
    rw [hsum j] at this
    simpa using this
  · intro h
    have := firstReach_crossed stm segs.reverse 0 (by simpa using h)
    rw [hsum (firstReach stm 0 segs.reverse)] at this
    simpa using this

/-- Claim C10 witness: with segments a,b,c of 3 seconds each and a 5-second
threshold, the leading scan selects the prefix a,b (6 seconds) and the
trailing scan the suffix b,c (6 seconds), both in original order. -/
theorem buildSegmentsList_example :
    buildSegmentsList 5 [⟨"a", 3⟩, ⟨"b", 3⟩, ⟨"c", 3⟩] true = (["a", "b"], 6) ∧
    buildSegmentsList 5 [⟨"a", 3⟩, ⟨"b", 3⟩, ⟨"c", 3⟩] false = (["b", "c"], 6) := by
  have h := buildSegmentsList_prefix_suffix 5 [⟨"a", 3⟩, ⟨"b", 3⟩, ⟨"c", 3⟩]
  have hfr : firstReach 5 0 [(⟨"a", 3⟩ : Segment), ⟨"b", 3⟩, ⟨"c", 3⟩] = 2 := by
    norm_num [firstReach]
  have hfr2 : firstReach 5 0 ([(⟨"a", 3⟩ : Segment), ⟨"b", 3⟩, ⟨"c", 3⟩].reverse) = 2 := by
    norm_num [firstReach]
  constructor
  · have h1 := h.1
    have h2 := h.2.1
    rw [hfr] at h1 h2
    norm_num at h1 h2
    rw [Prod.ext_iff]
    exact ⟨h1, h2⟩
  · have h1 := h.2.2.1
    have h2 := h.2.2.2.1
    rw [hfr2] at h1 h2
    norm_num at h1 h2
    rw [Prod.ext_iff]
    exact ⟨h1, h2⟩

/-- One prepared audio window yielded by AudioProvider.get_iterator.  The
merged wav file is modelled by the list of segment URIs it was merged from
(download_and_merge_parts lives outside the staged sources; modelled from
the spec as the black-box "produce one merged audio file covering a target
window" operation). -/
structure AudioWindow where
  wavSegments : List String
  offset : ℚ
  duration : ℚ
deriving DecidableEq, Repr

/-- The per-playlist work of get_iterator: _get_wav (build the segment list
and merge), the truncated duration `min(segments_duration, seconds_to_match)`
and the yielded offset `0 if opening else
max(segments_duration - seconds_to_match, 0)`. -/
def windowOf (secondsToMatch : ℚ) (opening : Bool) (playlist : Playlist) : AudioWindow :=
  let r := buildSegmentsList secondsToMatch playlist opening
  { wavSegments := r.1
    offset := if opening then 0 else max (r.2 - secondsToMatch) 0
    duration := min r.2 secondsToMatch }

/-- audio_provider.py AudioProvider.  `_initialized` and `_completed` are
rebound per instance; `_truncated_durations_per_episode` is a class
attribute of the Python source, mutated in place and therefore shared by
every provider instance of the process — it is threaded separately as the
`shared` list below. -/
structure AudioProvider where
  playlists : List Playlist
  opening : Bool
  initialized : Bool
  completed : Bool
deriving DecidableEq, Repr

/-- A provider as constructed by AudioProvider.__init__. -/
def AudioProvider.fresh (playlists : List Playlist) (opening : Bool) : AudioProvider :=
  ⟨playlists, opening, false, false⟩

/-- get_iterator driven for `k` next() calls: the prefetch queue transports
each _get_wav result to its position in order (spec 4.1), so the yielded
windows are the per-playlist windows in manifest order.  With fewer than two
playlists the generator finishes at once yielding nothing; otherwise each of
the first `min k n` calls yields one window and appends its truncated
duration to the shared class-level list, and `_completed` becomes true only
when the generator is driven past its last yield (`k > n`). -/
def runProvider (secondsToMatch : ℚ) (p : AudioProvider) (shared : List ℚ) (k : ℕ) :
    Option (List AudioWindow × AudioProvider × List ℚ) :=
  if k = 0 then some ([], p, shared)
  else if p.initialized then none
  else if p.playlists.length < 2 then
    some ([], { p with initialized := true, completed := true }, shared)
  else
    let windows := p.playlists.map (windowOf secondsToMatch p.opening)
    let m := min k p.playlists.length
    some (windows.take m,
      { p with initialized := true, completed := decide (p.playlists.length < k) },
      shared ++ (windows.take m).map (fun w => w.duration))

/-- A provider run driven to exhaustion, as the recognition routine does. -/
def runProviderAll (secondsToMatch : ℚ) (p : AudioProvider) (shared : List ℚ) :
    Option (List AudioWindow × AudioProvider × List ℚ) :=
  runProvider secondsToMatch p shared (p.playlists.length + 1)

/-- audio_provider.py AudioProvider.truncated_durations: asserts _completed,
then returns the (class-level, shared) duration list. -/
def truncatedDurations (p : AudioProvider) (shared : List ℚ) : Option (List ℚ) :=
  match p.completed with
  | true => some shared
  | false => none

/-- Claim C3 (amended): a leading window's offset is 0; a trailing window's
offset is `clipDuration - capturedDuration` where clipDuration is the total
duration of the downloaded trailing segment list — the position of the
captured window inside the downloaded clip, not inside the full episode —
and every window a provider run yields is the per-playlist window, in
manifest order. -/
theorem windowOf_offset_within_clip :
    (∀ (stm : ℚ) (pl : Playlist), (windowOf stm true pl).offset = 0) ∧
    (∀ (stm : ℚ) (pl : Playlist),
      (windowOf stm false pl).offset
        = (buildSegmentsList stm pl false).2 - (windowOf stm false pl).duration) ∧
    (∀ (stm : ℚ) (p : AudioProvider) (shared : List ℚ) (k : ℕ)
        (windows : List AudioWindow) (p' : AudioProvider) (shared' : List ℚ),
      runProvider stm p shared k = some (windows, p', shared') →
      windows = (p.playlists.map (windowOf stm p.opening)).take windows.length) := by
  refine ⟨fun stm pl => rfl, ?_, ?_⟩
  · intro stm pl
    rcases le_total (buildSegmentsList stm pl false).2 stm with h | h
    · simp [windowOf, max_eq_right (sub_nonpos.mpr h), min_eq_left h]
    · simp [windowOf, max_eq_left (sub_nonneg.mpr h), min_eq_right h]
  · intro stm p shared k windows p' shared' hrun
    unfold runProvider at hrun
    split at hrun
    · simp only [Option.some.injEq, Prod.mk.injEq] at hrun
      rw [← hrun.1]
      simp
    · split at hrun
      · simp at hrun
      · split at hrun
        · simp only [Option.some.injEq, Prod.mk.injEq] at hrun
          rw [← hrun.1]
          simp
        · simp only [Option.some.injEq, Prod.mk.injEq] at hrun
          rw [← hrun.1, List.length_take, List.length_map]
          rw [min_assoc, min_self]

/-- The eight-segment, 800-second playlist used as the claim C3
counterexample input. -/
def egSegs800 : Playlist :=
  [⟨"s1", 100⟩, ⟨"s2", 100⟩, ⟨"s3", 100⟩, ⟨"s4", 100⟩,
   ⟨"s5", 100⟩, ⟨"s6", 100⟩, ⟨"s7", 100⟩, ⟨"s8", 100⟩]

/-- Claim C3 counterexample: with seconds_to_match 360 the trailing scan of
the 800-second playlist downloads the last four segments (400 seconds of
clip) and yields offset 40 = 400 - 360, not
totalDuration - capturedDuration = 800 - 360 = 440: the yielded offset is
relative to the downloaded clip, not to the full episode timeline. -/
theorem trailing_offset_counterexample :
    runProvider 360 (AudioProvider.fresh [egSegs800, egSegs800] false) [] 3 =
      some ([⟨["s5", "s6", "s7", "s8"], 40, 360⟩, ⟨["s5", "s6", "s7", "s8"], 40, 360⟩],
            ⟨[egSegs800, egSegs800], false, true, true⟩, [360, 360]) ∧
    (egSegs800.map (fun s => s.duration)).sum = 800 ∧
    (40 : ℚ) ≠ 800 - 360 := by
  refine ⟨?_, by norm_num [egSegs800], by norm_num⟩
  norm_num [runProvider, AudioProvider.fresh, windowOf, buildSegmentsList,
    selectSegments, egSegs800, min_def, max_def]

/-- The single-segment playlist used for the claim C4 failing input. -/
def egSegTen : Playlist := [⟨"x", 10⟩]

/-- Claim C4: evaluating the code at the failing input.  Within one batch the
leading provider appends its two truncated durations to the class-level
list; the trailing provider then appends its own two, so after full
consumption its truncated_durations returns four entries for two manifests
(the first two being the other instance's), instead of one entry per
supplied manifest.  The final conjuncts show the NotReadyError side: before
the sequence is driven past its last window, truncated_durations fails. -/
theorem truncatedDurations_shared_across_instances :
    runProvider 5 (AudioProvider.fresh [egSegTen, egSegTen] true) [] 3 =
      some ([⟨["x"], 0, 5⟩, ⟨["x"], 0, 5⟩], ⟨[egSegTen, egSegTen], true, true, true⟩, [5, 5]) ∧
    runProvider 5 (AudioProvider.fresh [egSegTen, egSegTen] false) [5, 5] 3 =
      some ([⟨["x"], 5, 5⟩, ⟨["x"], 5, 5⟩], ⟨[egSegTen, egSegTen], false, true, true⟩,
        [5, 5, 5, 5]) ∧
    truncatedDurations ⟨[egSegTen, egSegTen], false, true, true⟩ [5, 5, 5, 5]
      = some [5, 5, 5, 5] ∧
    ([(5 : ℚ), 5, 5, 5]).length ≠ ([egSegTen, egSegTen] : List Playlist).length ∧
    runProvider 5 (AudioProvider.fresh [egSegTen, egSegTen] false) [5, 5] 1 =
      some ([⟨["x"], 5, 5⟩], ⟨[egSegTen, egSegTen], false, true, false⟩, [5, 5, 5]) ∧
    truncatedDurations ⟨[egSegTen, egSegTen], false, true, false⟩ [5, 5, 5] = none := by
  refine ⟨?_, ?_, by norm_num [truncatedDurations], by norm_num, ?_, by
    norm_num [truncatedDurations]⟩ <;>
  norm_num [runProvider, AudioProvider.fresh, windowOf, buildSegmentsList,
    selectSegments, egSegTen, min_def, max_def]

/-- Total order standing in for Python sorted() on the guesses' float
lengths.  Python's comparison semantics make sorted() with NaNs depend on
input order; no claim depends on the median's value, only on
statistics.median raising StatisticsError on an empty sequence, so a fixed
total order (NaN lowest, then -inf, finite by value, then +inf) stands in. -/
def PFloat.leTotal : PFloat → PFloat → Bool
  | PFloat.nan, _ => true
  | _, PFloat.nan => false
  | PFloat.inf false, _ => true
  | _, PFloat.inf false => false
  | PFloat.fin a, PFloat.fin b => decide (a ≤ b)
  | PFloat.fin _, PFloat.inf true => true
  | PFloat.inf true, PFloat.fin _ => false
  | PFloat.inf true, PFloat.inf true => true

/-- Insertion step of the sort behind the median. -/
def insertSorted (x : PFloat) : List PFloat → List PFloat
  | [] => [x]
  | y :: ys => if x.leTotal y then x :: y :: ys else y :: insertSorted x ys

/-- Insertion sort standing in for Python sorted(). -/
def pysort (l : List PFloat) : List PFloat := l.foldr insertSorted []

/-- statistics.median: StatisticsError (None) on an empty sequence; the
middle element for odd length, the mean of the two middle elements for even
length. -/
def pymedian (l : List PFloat) : Option PFloat :=
  if l.isEmpty then none
  else
    let s := pysort l
    let n := l.length
    if n % 2 = 1 then some (s.getD (n / 2) PFloat.nan)
    else some (((s.getD (n / 2 - 1) PFloat.nan).add (s.getD (n / 2) PFloat.nan)).half)

/-- find_scenes.py _get_playlist_and_duration.  The get_video call and the
m3u8 manifest download for the lowest-quality playlist are the external
boundary, supplied as `fetch`; an episode is unusable when its playlist has
no segments or its total duration is under 2 x seconds_to_match. -/
def getPlaylistAndDuration (secondsToMatch : ℚ) (fetch : ℤ → String → ℤ → Playlist)
    (myAnimeListId : ℤ) (dub : String) (episode : ℤ) : Option (Playlist × ℚ) :=
  let playlist := fetch myAnimeListId dub episode
  if playlist.isEmpty then none
  else
    let totalDuration := (playlist.map (fun s => s.duration)).sum
    if totalDuration < 2 * secondsToMatch then none
    else some (playlist, totalDuration)

/-- find_scenes.py _fix_openings: openings close to the start are extended to
0; openings running to the end of the episode are replaced by a
median-length window; the median of an empty window set raises. -/
def fixOpenings (threshold : ℚ) (openings : List PInterval)
    (playlistsAndDurations : List (Playlist × ℚ)) (truncatedDurs : List ℚ) :
    Option (List PInterval) :=
  let zipped := openings.zip (truncatedDurs.zip playlistsAndDurations)
  match pymedian (zipped.map (fun z => z.1.stop.sub z.1.start)) with
  | none => none
  | some medianDuration =>
      some (zipped.map (fun z =>
        if z.1.start.lt (PFloat.fin threshold) then
          ⟨PFloat.fin 0, z.1.stop⟩
        else if (((PFloat.fin z.2.2.2).sub z.1.stop).pabs).lt (PFloat.fin threshold) then
          ⟨z.1.start, z.1.start.add medianDuration⟩
        else z.1))

/-- find_scenes.py _fix_endings: each trailing guess is rebased by
`offset = total_duration - truncated_duration`. -/
def fixEndings (endings : List PInterval)
    (playlistsAndDurations : List (Playlist × ℚ)) (truncatedDurs : List ℚ) :
    List PInterval :=
  let zipped := endings.zip (truncatedDurs.zip playlistsAndDurations)
  zipped.map (fun z =>
    ⟨z.1.start.add (PFloat.fin (z.2.2.2 - z.2.1)),
     z.1.stop.add (PFloat.fin (z.2.2.2 - z.2.1))⟩)

/-- find_scenes.py _get_openings, with the recognition routine as the
external parameter `recognise`.  The AudioProvider class-level duration list
is threaded in and out as `shared`. -/
def getOpenings (secondsToMatch threshold : ℚ)
    (recognise : List AudioWindow → List PInterval)
    (playlistsAndDurations : List (Playlist × ℚ)) (shared : List ℚ) :
    Option (List PInterval × List ℚ) :=
  let p := AudioProvider.fresh (playlistsAndDurations.map (fun x => x.1)) true
  match runProviderAll secondsToMatch p shared with
  | none => none
  | some (windows, p', shared') =>
      let openings := recognise windows
      match truncatedDurations p' shared' with
      | none => none
      | some tds =>
          match fixOpenings threshold openings playlistsAndDurations tds with
          | none => none
          | some fixed => some (fixed, shared')

/-- find_scenes.py _get_endings. -/
def getEndings (secondsToMatch : ℚ)
    (recognise : List AudioWindow → List PInterval)
    (playlistsAndDurations : List (Playlist × ℚ)) (shared : List ℚ) :
    Option (List PInterval × List ℚ) :=
  let p := AudioProvider.fresh (playlistsAndDurations.map (fun x => x.1)) false
  match runProviderAll secondsToMatch p shared with
  | none => none
  | some (windows, p', shared') =>
      let endings := recognise windows
      match truncatedDurations p' shared' with
      | none => none
      | some tds => some (fixEndings endings playlistsAndDurations tds, shared')

/-- find_scenes.py _get_scenes_by_playlists: openings, endings, then one
combined and rounded Scenes per zipped triple. -/
def getScenesByPlaylists (secondsToMatch threshold minSceneLength : ℚ)
    (recognise : List AudioWindow → List PInterval)
    (playlistsAndDurations : List (Playlist × ℚ)) (shared : List ℚ) :
    Option (List Scenes × List ℚ) :=
  match getOpenings secondsToMatch threshold recognise playlistsAndDurations shared with
  | none => none
  | some (openings, shared1) =>
      match getEndings secondsToMatch recognise playlistsAndDurations shared1 with
      | none => none
      | some (endings, shared2) =>
          some ((playlistsAndDurations.zip (openings.zip endings)).map (fun z =>
            roundScenes (combineScenes minSceneLength threshold z.2.1 z.2.2 z.1.2)),
            shared2)

/-- Python list.insert(i, x): l[:i] + [x] + l[i:], clamping like Python. -/
def pyInsert {α : Type _} (l : List α) (i : ℕ) (a : α) : List α :=
  l.take i ++ a :: l.drop i

/-- Indices of the unusable episodes, in enumeration order, as
`[i for i, pd in enumerate(...) if pd is None]` builds them. -/
def emptyIdxsFrom {α : Type _} (i : ℕ) : List (Option α) → List ℕ
  | [] => []
  | none :: rest => i :: emptyIdxsFrom (i + 1) rest
  | some _ :: rest => emptyIdxsFrom (i + 1) rest

/-- find_scenes.py find_scenes: resolve playlists, find scenes for the
usable ones, re-insert an all-absent Scenes at every unusable position, and
pair with the video keys in input order. -/
def findScenes (secondsToMatch threshold minSceneLength : ℚ)
    (fetch : ℤ → String → ℤ → Playlist)
    (recognise : List AudioWindow → List PInterval)
    (shared : List ℚ)
    (myAnimeListId : ℤ) (dub : String) (episodes : List ℤ) :
    Option (List (VideoKey × Scenes)) :=
  let plds := episodes.map (getPlaylistAndDuration secondsToMatch fetch myAnimeListId dub)
  let emptyIdxs := emptyIdxsFrom 0 plds
  let nonEmpty := plds.filterMap id
  match getScenesByPlaylists secondsToMatch threshold minSceneLength recognise
      nonEmpty shared with
  | none => none
  | some (foundScenes, _) =>
      let allScenes := emptyIdxs.foldl (fun acc i => pyInsert acc i allAbsent) foundScenes
      let videoKeys := episodes.map (fun e => VideoKey.mk myAnimeListId dub e)
      some (videoKeys.zip allScenes)

/-- Direct description of the insert-reconstruction: the absent record at
every unusable position, the found results in order at the usable ones. -/
def mergeBack {β γ : Type _} (absent : γ) : List (Option β) → List γ → List γ
  | [], _ => []
  | none :: rest, found => absent :: mergeBack absent rest found
  | some _ :: _, [] => []
  | some _ :: rest, f :: fs => f :: mergeBack absent rest fs

theorem pyInsert_zero {α : Type _} (l : List α) (a : α) : pyInsert l 0 a = a :: l := by
  simp [pyInsert]

theorem pyInsert_succ_cons {α : Type _} (x : α) (l : List α) (i : ℕ) (a : α) :
    pyInsert (x :: l) (i + 1) a = x :: pyInsert l i a := by
  simp [pyInsert]

theorem foldl_pyInsert_shift {γ : Type _} (a : γ) (idxs : List ℕ) :
    ∀ (x : γ) (l : List γ),
      List.foldl (fun acc i => pyInsert acc i a) (x :: l) (idxs.map (fun i => i + 1))
        = x :: List.foldl (fun acc i => pyInsert acc i a) l idxs := by
  induction idxs with
  | nil => intro x l; simp
  | cons j rest ih =>
      intro x l
      simp only [List.map_cons, List.foldl_cons]
      rw [pyInsert_succ_cons]
      exact ih x (pyInsert l j a)

theorem emptyIdxsFrom_shift {β : Type _} (l : List (Option β)) :
    ∀ i : ℕ, emptyIdxsFrom i l = (emptyIdxsFrom 0 l).map (fun j => j + i) := by
  induction l with
  | nil => intro i; simp [emptyIdxsFrom]
  | cons o rest ih =>
      intro i
      cases o with
      | none =>
          simp only [emptyIdxsFrom, List.map_cons]
          rw [ih (i + 1), ih 1, List.map_map]
          congr 1
          · omega
          · apply List.map_congr_left
            intro a _
            simp [Function.comp]
            omega
      | some b =>
          simp only [emptyIdxsFrom]
          rw [ih (i + 1), ih 1, List.map_map]
          apply List.map_congr_left
          intro a _
          simp [Function.comp]
          omega

theorem insert_restore {β γ : Type _} (absent : γ) :
    ∀ (opts : List (Option β)) (found : List γ),
      found.length = (opts.filterMap id).length →
      (emptyIdxsFrom 0 opts).foldl (fun acc i => pyInsert acc i absent) found
        = mergeBack absent opts found := by
  intro opts
  induction opts with
  | nil =>
      intro found h
      simp only [List.filterMap_nil, List.length_nil] at h
      simp [emptyIdxsFrom, mergeBack, List.eq_nil_of_length_eq_zero h]
  | cons o rest ih =>
      intro found h
      cases o with
      | none =>
          simp only [emptyIdxsFrom, List.foldl_cons, pyInsert_zero]
          rw [emptyIdxsFrom_shift rest 1, foldl_pyInsert_shift]
          rw [ih found (by simpa using h)]
          rfl
      | some b =>
          cases found with
          | nil => simp [List.filterMap_cons] at h
          | cons f fs =>
              simp only [emptyIdxsFrom]
              rw [emptyIdxsFrom_shift rest 1, foldl_pyInsert_shift]
              rw [ih fs (by simpa [List.filterMap_cons] using h)]
              rfl

theorem mergeBack_length {β γ : Type _} (absent : γ) :
    ∀ (opts : List (Option β)) (found : List γ),
      found.length = (opts.filterMap id).length →
      (mergeBack absent opts found).length = opts.length := by
  intro opts
  induction opts with
  | nil => intro found _; simp [mergeBack]
  | cons o rest ih =>
      intro found h
      cases o with
      | none =>
          simpa [mergeBack] using ih found (by simpa using h)
      | some b =>
          cases found with
          | nil => simp [List.filterMap_cons] at h
          | cons f fs =>
              simpa [mergeBack] using ih fs (by simpa [List.filterMap_cons] using h)

theorem mergeBack_getElem_none {β γ : Type _} (absent : γ) :
    ∀ (opts : List (Option β)) (found : List γ) (i : ℕ),
      found.length = (opts.filterMap id).length →
      opts[i]? = some none →
      (mergeBack absent opts found)[i]? = some absent := by
  intro opts
  induction opts with
  | nil => intro found i _ hi; simp at hi
  | cons o rest ih =>
      intro found i h hi
      cases o with
      | none =>
          cases i with
          | zero => simp [mergeBack]
          | succ j =>
              simp only [List.getElem?_cons_succ] at hi
              simpa [mergeBack] using ih found j (by simpa using h) hi
      | some b =>
          cases found with
          | nil => simp [List.filterMap_cons] at h
          | cons f fs =>
              cases i with
              | zero => simp at hi
              | succ j =>
                  simp only [List.getElem?_cons_succ] at hi
                  simpa [mergeBack] using
                    ih fs j (by simpa [List.filterMap_cons] using h) hi

theorem mergeBack_extract {β γ : Type _} (absent : γ) :
    ∀ (opts : List (Option β)) (found : List γ),
      found.length = (opts.filterMap id).length →
      (opts.zip (mergeBack absent opts found)).filterMap
          (fun z => if z.1.isSome then some z.2 else none) = found := by
  intro opts
  induction opts with
  | nil =>
      intro found h
      simp only [List.filterMap_nil, List.length_nil] at h
      simp [mergeBack, List.eq_nil_of_length_eq_zero h]
  | cons o rest ih =>
      intro found h
      cases o with
      | none =>
          simpa [mergeBack, List.filterMap_cons] using ih found (by simpa using h)
      | some b =>
          cases found with
          | nil => simp [List.filterMap_cons] at h
          | cons f fs =>
              simpa [mergeBack, List.filterMap_cons] using
                ih fs (by simpa [List.filterMap_cons] using h)

theorem runProviderAll_fresh (stm : ℚ) (pls : List Playlist) (b : Bool) (shared : List ℚ)
    (h2 : 2 ≤ pls.length) :
    runProviderAll stm (AudioProvider.fresh pls b) shared =
      some (pls.map (windowOf stm b), ⟨pls, b, true, true⟩,
        shared ++ (pls.map (windowOf stm b)).map (fun w => w.duration)) := by
  unfold runProviderAll runProvider AudioProvider.fresh
  have h0 : pls.length + 1 ≠ 0 := Nat.succ_ne_zero _
  have hn : ¬ (pls.length < 2) := by omega
  have hmin : min (pls.length + 1) pls.length = pls.length :=
    min_eq_right (Nat.le_succ _)
  have htake : (pls.map (windowOf stm b)).take pls.length = pls.map (windowOf stm b) := by
    rw [show pls.length = (pls.map (windowOf stm b)).length from (List.length_map _ _).symm,
      List.take_length]
  simp only [h0, if_false, Bool.false_eq_true, hn, hmin, htake,
    Nat.lt_succ_self, decide_eq_true_eq, if_neg, ite_false, ite_true]
  simp [Nat.lt_succ_self]

theorem pymedian_isSome_of_ne_nil (l : List PFloat) (h : l ≠ []) :
    (pymedian l).isSome = true := by
  unfold pymedian
  have he : l.isEmpty = false := by
    cases l with
    | nil => exact absurd rfl h
    | cons x xs => rfl
  rw [he]
  simp only [Bool.false_eq_true, if_false]
  split <;> rfl

theorem fixOpenings_spec (threshold : ℚ) (openings : List PInterval)
    (plds : List (Playlist × ℚ)) (tds : List ℚ)
    (hne : 0 < min openings.length (min tds.length plds.length)) :
    ∃ fixed, fixOpenings threshold openings plds tds = some fixed ∧
      fixed.length = min openings.length (min tds.length plds.length) := by
  simp only [fixOpenings]
  have hz : (openings.zip (tds.zip plds)).length
      = min openings.length (min tds.length plds.length) := by
    simp [List.length_zip]
  have hzne : (openings.zip (tds.zip plds)).map
      (fun z => z.1.stop.sub z.1.start) ≠ [] := by
    intro hnil
    have := congrArg List.length hnil
    simp only [List.length_map, hz, List.length_nil] at this
    omega
  have hmed := pymedian_isSome_of_ne_nil _ hzne
  obtain ⟨med, hmedeq⟩ := Option.isSome_iff_exists.mp hmed
  rw [hmedeq]
  exact ⟨_, rfl, by simp [List.length_zip]⟩

theorem getScenesByPlaylists_spec (stm threshold minLen : ℚ)
    (recognise : List AudioWindow → List PInterval)
    (plds : List (Playlist × ℚ)) (shared : List ℚ)
    (hrec : ∀ ws, (recognise ws).length = ws.length)
    (h2 : 2 ≤ plds.length) :
    ∃ scenes shared', getScenesByPlaylists stm threshold minLen recognise plds shared
        = some (scenes, shared') ∧ scenes.length = plds.length := by
  have h2m : 2 ≤ (plds.map (fun x => x.1)).length := by simpa using h2
  have hwlen : ∀ b : Bool,
      ((plds.map (fun x => x.1)).map (windowOf stm b)).length = plds.length := by
    intro b; simp
  have hoplen : ∀ b : Bool,
      (recognise ((plds.map (fun x => x.1)).map (windowOf stm b))).length
        = plds.length := by
    intro b; rw [hrec]; exact hwlen b
  -- the opening pass
  have hop : ∀ sh : List ℚ, ∃ fixed,
      getOpenings stm threshold recognise plds sh
        = some (fixed,
            sh ++ ((plds.map (fun x => x.1)).map (windowOf stm true)).map
              (fun w => w.duration)) ∧
      fixed.length = plds.length := by
    intro sh
    have hminL : min (recognise ((plds.map (fun x => x.1)).map (windowOf stm true))).length
        (min (sh ++ ((plds.map (fun x => x.1)).map (windowOf stm true)).map
          (fun w => w.duration)).length plds.length) = plds.length := by
      rw [hoplen true]
      have : plds.length ≤ (sh ++ ((plds.map (fun x => x.1)).map (windowOf stm true)).map
          (fun w => w.duration)).length := by
        simp
      omega
    obtain ⟨fixed, hfix, hlen⟩ := fixOpenings_spec threshold
      (recognise ((plds.map (fun x => x.1)).map (windowOf stm true))) plds
      (sh ++ ((plds.map (fun x => x.1)).map (windowOf stm true)).map (fun w => w.duration))
      (by rw [hminL]; omega)
    refine ⟨fixed, ?_, by rw [hlen, hminL]⟩
    simp only [getOpenings, runProviderAll_fresh stm _ true sh h2m,
      truncatedDurations, hfix]
  -- the ending pass
  have hen : ∀ sh : List ℚ, ∃ ends,
      getEndings stm recognise plds sh
        = some (ends,
            sh ++ ((plds.map (fun x => x.1)).map (windowOf stm false)).map
              (fun w => w.duration)) ∧
      ends.length = plds.length := by
    intro sh
    refine ⟨fixEndings (recognise ((plds.map (fun x => x.1)).map (windowOf stm false))) plds
      (sh ++ ((plds.map (fun x => x.1)).map (windowOf stm false)).map (fun w => w.duration)),
      ?_, ?_⟩
    · simp only [getEndings, runProviderAll_fresh stm _ false sh h2m, truncatedDurations]
    · simp only [fixEndings]
      rw [List.length_map, List.length_zip, List.length_zip, hoplen false]
      have : plds.length ≤ (sh ++ ((plds.map (fun x => x.1)).map (windowOf stm false)).map
          (fun w => w.duration)).length := by
        simp
      omega
  obtain ⟨fixedOp, hfixop, hlenop⟩ := hop shared
  obtain ⟨ends, hfixen, hlenen⟩ := hen
    (shared ++ ((plds.map (fun x => x.1)).map (windowOf stm true)).map (fun w => w.duration))
  refine ⟨(plds.zip (fixedOp.zip ends)).map (fun z =>
      roundScenes (combineScenes minLen threshold z.2.1 z.2.2 z.1.2)),
    shared ++ ((plds.map (fun x => x.1)).map (windowOf stm true)).map (fun w => w.duration)
      ++ ((plds.map (fun x => x.1)).map (windowOf stm false)).map (fun w => w.duration),
    ?_, ?_⟩
  · simp only [getScenesByPlaylists, hfixop, hfixen]
  · rw [List.length_map, List.length_zip, List.length_zip, hlenop, hlenen]
    omega

/-- Claim C1 (amended): provided the recognition routine returns one interval
per supplied window and at least two requested episodes have usable
manifests, find_scenes returns exactly one (VideoKey, Scenes) pair per
requested episode, in input order; every unusable episode (no segments, or
total duration under 2 x secondsToMatch) receives the all-absent record, and
the usable episodes' records are exactly the ones computed for the usable
playlists, in order, unaffected by the unusable episodes. -/
theorem findScenes_one_per_episode (stm threshold minLen : ℚ)
    (fetch : ℤ → String → ℤ → Playlist)
    (recognise : List AudioWindow → List PInterval)
    (shared : List ℚ) (mal : ℤ) (dub : String) (episodes : List ℤ)
    (hrec : ∀ ws, (recognise ws).length = ws.length)
    (h2 : 2 ≤ ((episodes.map (getPlaylistAndDuration stm fetch mal dub)).filterMap id).length) :
    (findScenes stm threshold minLen fetch recognise shared mal dub episodes).isSome = true ∧
    (∀ res, findScenes stm threshold minLen fetch recognise shared mal dub episodes
        = some res →
      res.length = episodes.length ∧
      res.map Prod.fst = episodes.map (fun e => VideoKey.mk mal dub e) ∧
      (∀ i : ℕ, (episodes.map (getPlaylistAndDuration stm fetch mal dub))[i]? = some none →
        (res[i]?).map Prod.snd = some allAbsent) ∧
      (∀ found shared',
        getScenesByPlaylists stm threshold minLen recognise
          ((episodes.map (getPlaylistAndDuration stm fetch mal dub)).filterMap id) shared
          = some (found, shared') →
        ((episodes.map (getPlaylistAndDuration stm fetch mal dub)).zip
            (res.map Prod.snd)).filterMap
          (fun z => if z.1.isSome then some z.2 else none) = found)) := by
  obtain ⟨scenes, shared', hG, hGlen⟩ := getScenesByPlaylists_spec stm threshold minLen
    recognise ((episodes.map (getPlaylistAndDuration stm fetch mal dub)).filterMap id)
    shared hrec h2
  have hfold := insert_restore allAbsent
    (episodes.map (getPlaylistAndDuration stm fetch mal dub)) scenes hGlen
  have hkey : findScenes stm threshold minLen fetch recognise shared mal dub episodes
      = some ((episodes.map (fun e => VideoKey.mk mal dub e)).zip
          (mergeBack allAbsent (episodes.map (getPlaylistAndDuration stm fetch mal dub))
            scenes)) := by
    simp only [findScenes, hG, hfold]
  have hmlen : (mergeBack allAbsent
      (episodes.map (getPlaylistAndDuration stm fetch mal dub)) scenes).length
      = episodes.length := by
    rw [mergeBack_length allAbsent _ scenes hGlen, List.length_map]
  have hklen : (episodes.map (fun e => VideoKey.mk mal dub e)).length = episodes.length :=
    List.length_map _ _
  constructor
  · rw [hkey]; rfl
  · intro res hres
    rw [hkey] at hres
    have hreseq := (Option.some.inj hres).symm
    subst hreseq
    have hsnd : ((episodes.map (fun e => VideoKey.mk mal dub e)).zip
        (mergeBack allAbsent (episodes.map (getPlaylistAndDuration stm fetch mal dub))
          scenes)).map Prod.snd
        = mergeBack allAbsent (episodes.map (getPlaylistAndDuration stm fetch mal dub))
            scenes :=
      List.map_snd_zip _ _ (by rw [hmlen, hklen])
    refine ⟨?_, ?_, ?_, ?_⟩
    · rw [List.length_zip, hmlen, hklen, min_self]
    · exact List.map_fst_zip _ _ (by rw [hmlen, hklen])
    · intro i hi
      have : (((episodes.map (fun e => VideoKey.mk mal dub e)).zip
          (mergeBack allAbsent (episodes.map (getPlaylistAndDuration stm fetch mal dub))
            scenes))[i]?).map Prod.snd
          = (((episodes.map (fun e => VideoKey.mk mal dub e)).zip
              (mergeBack allAbsent
                (episodes.map (getPlaylistAndDuration stm fetch mal dub)) scenes)).map
              Prod.snd)[i]? := by
        rw [List.getElem?_map]
      rw [this, hsnd]
      exact mergeBack_getElem_none allAbsent _ scenes i hGlen hi
    · intro found shared'' hG2
      rw [hG] at hG2
      have hfound : scenes = found := by
        have := Option.some.inj hG2
        exact congrArg Prod.fst this
      rw [hsnd, mergeBack_extract allAbsent _ scenes hGlen]
      exact hfound

/-- The two-segment, ten-second playlist every episode of the claim C1
witness resolves to. -/
def egFetch : ℤ → String → ℤ → Playlist := fun _ _ _ => [⟨"a", 5⟩, ⟨"b", 5⟩]

/-- Claim C1 witness: a concrete two-episode request whose manifests are
usable (ten seconds each, at least 2 x 4) under a recognition oracle that
returns one guess per window; find_scenes produces a result. -/
theorem findScenes_witness :
    (findScenes 4 4 2 egFetch
      (fun ws => ws.map (fun _ => ⟨PFloat.fin 0, PFloat.fin 3⟩))
      [] 1 "en" [1, 2]).isSome = true :=
  (findScenes_one_per_episode 4 4 2 egFetch
    (fun ws => ws.map (fun _ => ⟨PFloat.fin 0, PFloat.fin 3⟩)) [] 1 "en" [1, 2]
    (fun ws => by simp)
    (by norm_num [getPlaylistAndDuration, egFetch, List.filterMap_cons])).1

/-- Claim C1 counterexample: a single requested episode whose manifest has no
segments.  All episodes are skipped, the recognition pass sees no windows,
and _fix_openings takes the median of an empty sequence — statistics.median
raises StatisticsError, so find_scenes returns no result at all instead of
one all-absent pair for the episode. -/
theorem findScenes_single_empty_counterexample :
    findScenes 4 4 2 (fun _ _ _ => [])
      (fun ws => ws.map (fun _ => ⟨PFloat.fin 0, PFloat.fin 3⟩))
      [] 1 "en" [7] = none := rfl

/-- main.py _ensure_if_all_videos_for_same_group: true when every video has
the first one's my_anime_list_id and dub (the source raises ValueError
otherwise). -/
def sameGroup (videos : List VideoKey) : Bool :=
  match videos with
  | [] => true
  | v :: _ => videos.all (fun w =>
      decide (w.myAnimeListId = v.myAnimeListId) && decide (w.dub = v.dub))

/-- main.py _get_episodes_to_process.  The get_episodes lambda call is the
external boundary, supplied as `available` (the available episodes in
availability order).  Asserts the request is nonempty.  With `force` the
full available list is returned only when it has fewer than 27 entries,
otherwise the empty list (with an error log).  Without `force`, the union of
the index windows `[vi - episodesToMatch, vi + episodesToMatch + 1)` around
each requested episode present in the list, in index order; the dict
comprehension keeps the last index of a duplicated episode number. -/
def getEpisodesToProcess (available : List ℤ) (videos : List VideoKey) (force : Bool)
    (episodesToMatch : ℕ) : Option (List ℤ) :=
  if videos.isEmpty then none
  else if force then
    if available.length < 27 then some available else some []
  else
    let episodeIndexMap : ℤ → Option ℕ := fun e =>
      ((List.range available.length).filter (fun i => decide (available[i]? = some e))).getLast?
    let inWindow : ℕ → Bool := fun i =>
      videos.any (fun v =>
        match episodeIndexMap v.episode with
        | none => false
        | some vi =>
            decide (vi - episodesToMatch ≤ i) &&
            decide (i < min available.length (vi + episodesToMatch + 1)))
    some (((List.range available.length).filter inWindow).filterMap
      (fun i => available[i]?))

/-- The list comprehension `[eps[i:i+B] for i in range(0, len(eps), B)]`. -/
def sliceChunks {α : Type _} (l : List α) (B : ℕ) : List (List α) :=
  (List.range ((l.length + B - 1) / B)).map (fun k => (l.drop (k * B)).take B)

/-- main.py _process_videos batching: contiguous chunks of batch_size; then,
when more than one chunk exists and the final chunk is undersized, it is
folded into its predecessor (`batches[-2].extend(batches.pop())`). -/
def splitIntoBatches {α : Type _} (l : List α) (B : ℕ) : List (List α) :=
  let batches := sliceChunks l B
  if 1 < batches.length ∧ (batches.getLast?.getD []).length < B then
    batches.dropLast.dropLast
      ++ [(batches.dropLast.getLast?.getD []) ++ batches.getLast?.getD []]
  else batches

/-- One result-boundary report event the controller emits. -/
inductive Report where
  | emptyScenes (keys : List VideoKey) : Report
  | scenes (items : List (VideoKey × Scenes)) : Report
deriving DecidableEq, Repr

/-- The video keys a report covers. -/
def keysOfReport : Report → List VideoKey
  | Report.emptyScenes ks => ks
  | Report.scenes items => items.map Prod.fst

/-- One AWS lambda invocation at the external boundary. -/
structure LambdaInvocation where
  functionName : String
deriving DecidableEq, Repr

/-- animan_client.py update_video_scenes: serialises the payload and then
performs nothing — the lambda invoke under it is commented out in the
source, so the function causes no external invocation. -/
def updateVideoScenes (_data : List (VideoKey × Scenes)) : List LambdaInvocation := []

/-- animan_client.py upload_empty_scenes: logs and then performs nothing —
the body that would build the request and call update_video_scenes is
commented out in the source. -/
def uploadEmptyScenes (_videos : List VideoKey) : List LambdaInvocation := []

/-- The lambda invocations a report event causes when handed to the animan
client functions. -/
def invocationsOfReport : Report → List LambdaInvocation
  | Report.emptyScenes ks => uploadEmptyScenes ks
  | Report.scenes items => updateVideoScenes items

/-- main.py _process_batch under a deterministic find_scenes outcome
(`batchScenes`; None models an exception, which the bounded retry repeats
and which the caller's except-branch turns into an empty-scenes report):
on a count match the scenes are reported, otherwise empty scenes for every
episode of the batch. -/
def processBatch (batchScenes : List ℤ → Option (List (VideoKey × Scenes)))
    (myAnimeListId : ℤ) (dub : String) (batch : List ℤ) : Report :=
  match batchScenes batch with
  | none => Report.emptyScenes (batch.map (fun e => VideoKey.mk myAnimeListId dub e))
  | some scenesByVideo =>
      if scenesByVideo.length = batch.length then Report.scenes scenesByVideo
      else Report.emptyScenes (batch.map (fun e => VideoKey.mk myAnimeListId dub e))

/-- main.py _process_videos as the sequence of result-boundary reports it
emits; none models the ValueError of a mixed group and the IndexError of an
empty request. -/
def processVideos (minEpisodeNumber batchSize episodesToMatch : ℕ)
    (available : List ℤ)
    (batchScenes : List ℤ → Option (List (VideoKey × Scenes)))
    (videos : List VideoKey) (force : Bool) : Option (List Report) :=
  match videos with
  | [] => none
  | v0 :: _ =>
      if sameGroup videos = false then none
      else
        match getEpisodesToProcess available videos force episodesToMatch with
        | none => none
        | some eps =>
            if eps.length < minEpisodeNumber then some [Report.emptyScenes videos]
            else
              let unavailable := videos.filter (fun v => !decide (v.episode ∈ eps))
              if 0 < unavailable.length ∧ force = false then
                some [Report.emptyScenes unavailable]
              else
                some ((splitIntoBatches eps batchSize).map
                  (processBatch batchScenes v0.myAnimeListId v0.dub))

/-- Claim C9: the result-submission functions perform no external invocation
on any input — their invoke calls are commented out in the source — so no
computed Scenes or empty-scenes fallback report of any controller trace ever
reaches the external result boundary. -/
theorem animan_submission_noop (data : List (VideoKey × Scenes)) (keys : List VideoKey)
    (reports : List Report) :
    updateVideoScenes data = [] ∧ uploadEmptyScenes keys = [] ∧
    (reports.map invocationsOfReport).flatten = [] := by
  refine ⟨rfl, rfl, ?_⟩
  induction reports with
  | nil => rfl
  | cons r rest ih =>
      cases r <;>
        simpa [invocationsOfReport, updateVideoScenes, uploadEmptyScenes] using ih

/-- Claim C8 (amended): with force set, _get_episodes_to_process returns the
full available list exactly when fewer than 27 episodes are available; with
27 or more it returns the empty list (and reports an error). -/
theorem getEpisodesToProcess_force (available : List ℤ) (videos : List VideoKey)
    (episodesToMatch : ℕ) (hne : videos ≠ []) :
    getEpisodesToProcess available videos true episodesToMatch
      = some (if available.length < 27 then available else []) := by
  have he : videos.isEmpty = false := by
    cases videos with
    | nil => exact absurd rfl hne
    | cons v rest => rfl
  by_cases h : available.length < 27 <;> simp [getEpisodesToProcess, he, h]

/-- The 26-episode available list of the claim C8 witness. -/
def eg26 : List ℤ := (List.range 26).map Int.ofNat

/-- The 27-episode available list of the claim C8 counterexample. -/
def eg27 : List ℤ := (List.range 27).map Int.ofNat

/-- Claim C8 witness: with 26 available episodes and force set the full list
comes back. -/
theorem getEpisodesToProcess_force_witness :
    getEpisodesToProcess eg26 [⟨1, "en", 1⟩] true 5 = some eg26 := by
  have h26 : eg26.length = 26 := by decide
  rw [getEpisodesToProcess_force eg26 [⟨1, "en", 1⟩] 5 (by simp),
    if_pos (by rw [h26]; norm_num)]

/-- Claim C8 counterexample: with exactly 27 available episodes the claim
says the full list is returned; the source tests `len(available) < 27` and
returns the empty list. -/
theorem getEpisodesToProcess_force_27_counterexample :
    getEpisodesToProcess eg27 [⟨1, "en", 1⟩] true 5 = some [] ∧ eg27 ≠ [] := by
  have h27 : eg27.length = 27 := by decide
  constructor
  · simp [getEpisodesToProcess, h27]
  · intro h
    have hlen := congrArg List.length h
    rw [h27] at hlen
    simp at hlen

/-- Fuel-indexed recursion computing the same chunks as `sliceChunks`. -/
def chunksFuel {α : Type _} (B : ℕ) : ℕ → List α → List (List α)
  | _, [] => []
  | 0, _ :: _ => []
  | fuel + 1, x :: xs => ((x :: xs).take B) :: chunksFuel B fuel ((x :: xs).drop B)

theorem chunksFuel_nil {α : Type _} (B fuel : ℕ) : chunksFuel B fuel ([] : List α) = [] := by
  cases fuel <;> rfl

theorem sliceChunks_nil {α : Type _} (B : ℕ) (hB : 1 ≤ B) :
    sliceChunks ([] : List α) B = [] := by
  unfold sliceChunks
  have h : ((List.length ([] : List α)) + B - 1) / B = 0 := by
    simp only [List.length_nil]
    exact Nat.div_eq_of_lt (by omega)
  rw [h]
  rfl

theorem sliceChunks_cons_eq {α : Type _} (B : ℕ) (hB : 1 ≤ B) (l : List α) (hl : l ≠ []) :
    sliceChunks l B = l.take B :: sliceChunks (l.drop B) B := by
  have hn : 1 ≤ l.length := by
    cases l with
    | nil => exact absurd rfl hl
    | cons x xs => simp
  have hcnt : (l.length + B - 1) / B = ((l.length - B) + B - 1) / B + 1 := by
    by_cases hB2 : B ≤ l.length
    · have heq : l.length + B - 1 = ((l.length - B) + B - 1) + B := by omega
      rw [heq, Nat.add_div_right _ (by omega)]
    · have h0 : l.length - B = 0 := by omega
      rw [h0]
      have h1 : (l.length + B - 1) / B = 1 :=
        Nat.div_eq_of_lt_le (by omega) (by omega)
      have h2 : (0 + B - 1) / B = 0 := Nat.div_eq_of_lt (by omega)
      rw [h1, h2]
  have hlendrop : (l.drop B).length = l.length - B := List.length_drop B l
  simp only [sliceChunks, hcnt, List.range_succ_eq_map, List.map_cons, List.map_map,
    hlendrop]
  congr 1
  · simp
  · apply List.map_congr_left
    intro k _
    simp only [Function.comp_apply]
    rw [List.drop_drop]
    congr 2
    rw [Nat.succ_mul]
    exact Nat.add_comm _ _

theorem sliceChunks_eq_chunksFuel {α : Type _} (B : ℕ) (hB : 1 ≤ B) :
    ∀ (fuel : ℕ) (l : List α), l.length ≤ fuel → sliceChunks l B = chunksFuel B fuel l := by
  intro fuel
  induction fuel with
  | zero =>
      intro l hl
      have : l = [] := List.eq_nil_of_length_eq_zero (by omega)
      subst this
      rw [sliceChunks_nil B hB, chunksFuel_nil]
  | succ fuel ih =>
      intro l hl
      cases l with
      | nil => rw [sliceChunks_nil B hB, chunksFuel_nil]
      | cons x xs =>
          rw [sliceChunks_cons_eq B hB (x :: xs) (by simp), chunksFuel]
          congr 1
          apply ih
          rw [List.length_drop]
          simp only [List.length_cons] at hl ⊢
          omega

theorem chunksFuel_flatten {α : Type _} (B : ℕ) (hB : 1 ≤ B) :
    ∀ (fuel : ℕ) (l : List α), l.length ≤ fuel → (chunksFuel B fuel l).flatten = l := by
  intro fuel
  induction fuel with
  | zero =>
      intro l hl
      have : l = [] := List.eq_nil_of_length_eq_zero (by omega)
      subst this
      rfl
  | succ fuel ih =>
      intro l hl
      cases l with
      | nil => rfl
      | cons x xs =>
          rw [chunksFuel, List.flatten_cons,
            ih _ (by rw [List.length_drop]; simp only [List.length_cons] at hl ⊢; omega),
            List.take_append_drop]

theorem chunksFuel_mem_bounds {α : Type _} (B : ℕ) (hB : 1 ≤ B) :
    ∀ (fuel : ℕ) (l : List α), ∀ c ∈ chunksFuel B fuel l, c ≠ [] ∧ c.length ≤ B := by
  intro fuel
  induction fuel with
  | zero =>
      intro l c hc
      cases l <;> simp [chunksFuel] at hc
  | succ fuel ih =>
      intro l c hc
      cases l with
      | nil => simp [chunksFuel] at hc
      | cons x xs =>
          rw [chunksFuel] at hc
          rcases List.mem_cons.mp hc with h | h
          · subst h
            constructor
            · simp only [ne_eq, List.take_eq_nil_iff]
              push_neg
              exact ⟨by omega, by simp⟩
            · simp [List.length_take]
          · exact ih _ c h

theorem chunksFuel_dropLast_full {α : Type _} (B : ℕ) (hB : 1 ≤ B) :
    ∀ (fuel : ℕ) (l : List α), ∀ c ∈ (chunksFuel B fuel l).dropLast, c.length = B := by
  intro fuel
  induction fuel with
  | zero =>
      intro l c hc
      cases l <;> simp [chunksFuel] at hc
  | succ fuel ih =>
      intro l c hc
      cases l with
      | nil => simp [chunksFuel] at hc
      | cons x xs =>
          rw [chunksFuel] at hc
          rcases hrest : chunksFuel B fuel ((x :: xs).drop B) with _ | ⟨r, rs⟩
          · rw [hrest] at hc
            simp at hc
          · rw [hrest, List.dropLast_cons_of_ne_nil (by simp)] at hc
            rcases List.mem_cons.mp hc with h | h
            · subst h
              have hdropne : (x :: xs).drop B ≠ [] := by
                intro hnil
                rw [hnil, chunksFuel_nil] at hrest
                exact absurd hrest.symm (by simp)
              have hBlt : B < (x :: xs).length := by
                by_contra hle
                push_neg at hle
                exact hdropne (List.drop_eq_nil_of_le hle)
              simp only [List.length_cons] at hBlt
              simp [List.length_take]
              omega
            · exact ih _ c (by rw [hrest]; exact h)

/-- Claim C7: splitting into batches yields contiguous chunks whose
concatenation is the input; every batch has at most 2N-1 elements; when
more than one batch exists every batch has at least N elements (an
undersized final chunk is merged into its predecessor); and 19 episodes
with N = 10 yield the single batch of all 19, not sizes 10 and 9. -/
theorem splitIntoBatches_spec {α : Type _} (l : List α) (B : ℕ) (hB : 1 ≤ B) :
    (splitIntoBatches l B).flatten = l ∧
    (∀ c ∈ splitIntoBatches l B, c.length ≤ 2 * B - 1) ∧
    (1 < (splitIntoBatches l B).length → ∀ c ∈ splitIntoBatches l B, B ≤ c.length) ∧
    splitIntoBatches ((List.range 19).map Int.ofNat) 10
      = [(List.range 19).map Int.ofNat] := by
  have hslice := sliceChunks_eq_chunksFuel B hB l.length l le_rfl
  have hjoin : (sliceChunks l B).flatten = l := by
    rw [hslice]; exact chunksFuel_flatten B hB l.length l le_rfl
  have hmem : ∀ c ∈ sliceChunks l B, c ≠ [] ∧ c.length ≤ B := by
    rw [hslice]; exact chunksFuel_mem_bounds B hB l.length l
  have hfull : ∀ c ∈ (sliceChunks l B).dropLast, c.length = B := by
    rw [hslice]; exact chunksFuel_dropLast_full B hB l.length l
  have hexample : splitIntoBatches ((List.range 19).map Int.ofNat) 10
      = [(List.range 19).map Int.ofNat] := by decide
  refine ⟨?_, ?_, ?_, hexample⟩
  · -- concatenation is the input
    simp only [splitIntoBatches]
    split
    case isTrue h =>
      obtain ⟨hgt1, hlast⟩ := h
      have hne : sliceChunks l B ≠ [] := by
        intro hnil; rw [hnil] at hgt1; simp at hgt1
      have hdlne : (sliceChunks l B).dropLast ≠ [] := by
        intro hnil
        have := congrArg List.length hnil
        rw [List.length_dropLast] at this
        simp at this
        omega
      have hdecomp : sliceChunks l B
          = (sliceChunks l B).dropLast ++ [(sliceChunks l B).getLast hne] :=
        (List.dropLast_append_getLast hne).symm
      have hdecomp2 : (sliceChunks l B).dropLast
          = (sliceChunks l B).dropLast.dropLast
              ++ [(sliceChunks l B).dropLast.getLast hdlne] :=
        (List.dropLast_append_getLast hdlne).symm
      rw [List.getLast?_eq_getLast _ hne, List.getLast?_eq_getLast _ hdlne]
      simp only [Option.getD_some]
      conv_rhs => rw [← hjoin, hdecomp, hdecomp2]
      simp [List.flatten_append]
    case isFalse h =>
      exact hjoin
  · -- every batch has at most 2B-1 elements
    simp only [splitIntoBatches]
    split
    case isTrue h =>
      obtain ⟨hgt1, hlast⟩ := h
      have hne : sliceChunks l B ≠ [] := by
        intro hnil; rw [hnil] at hgt1; simp at hgt1
      have hdlne : (sliceChunks l B).dropLast ≠ [] := by
        intro hnil
        have := congrArg List.length hnil
        rw [List.length_dropLast] at this
        simp at this
        omega
      rw [List.getLast?_eq_getLast _ hne] at hlast ⊢
      rw [List.getLast?_eq_getLast _ hdlne]
      simp only [Option.getD_some] at hlast ⊢
      intro c hc
      rcases List.mem_append.mp hc with hcm | hcm
      · have : c ∈ (sliceChunks l B).dropLast :=
          ((List.dropLast_sublist _).mem hcm)
        rw [hfull c this]
        omega
      · rw [List.mem_singleton.mp hcm, List.length_append]
        have h1 : ((sliceChunks l B).dropLast.getLast hdlne).length = B :=
          hfull _ (List.getLast_mem hdlne)
        omega
    case isFalse h =>
      intro c hc
      exact le_trans (hmem c hc).2 (by omega)
  · -- with more than one batch, every batch has at least B elements
    simp only [splitIntoBatches]
    split
    case isTrue h =>
      intro _ c hc
      obtain ⟨hgt1, hlast⟩ := h
      have hne : sliceChunks l B ≠ [] := by
        intro hnil; rw [hnil] at hgt1; simp at hgt1
      have hdlne : (sliceChunks l B).dropLast ≠ [] := by
        intro hnil
        have := congrArg List.length hnil
        rw [List.length_dropLast] at this
        simp at this
        omega
      rcases List.mem_append.mp hc with hcm | hcm
      · have : c ∈ (sliceChunks l B).dropLast :=
          ((List.dropLast_sublist _).mem hcm)
        have := hfull c this
        omega
      · rw [List.getLast?_eq_getLast _ hne, List.getLast?_eq_getLast _ hdlne] at hcm
        simp only [Option.getD_some] at hcm
        rw [List.mem_singleton.mp hcm, List.length_append]
        have h1 : ((sliceChunks l B).dropLast.getLast hdlne).length = B :=
          hfull _ (List.getLast_mem hdlne)
        omega
    case isFalse h =>
      intro hgt1 c hc
      have hne : sliceChunks l B ≠ [] := by
        intro hnil; rw [hnil] at hc; simp at hc
      rw [not_and_or] at h
      rcases h with h | h
      · exact absurd hgt1 h
      · push_neg at h
        rw [List.getLast?_eq_getLast _ hne, Option.getD_some] at h
        have hdecomp : sliceChunks l B
            = (sliceChunks l B).dropLast ++ [(sliceChunks l B).getLast hne] :=
          (List.dropLast_append_getLast hne).symm
        rw [hdecomp] at hc
        rcases List.mem_append.mp hc with hcm | hcm
        · rw [hfull c hcm]
        · rw [List.mem_singleton.mp hcm]
          exact h

/-- Claim C7 witness, the spec's own example: 19 episodes with batch size 10
form one batch of 19, not batches of 10 and 9. -/
theorem splitIntoBatches_example :
    splitIntoBatches ((List.range 19).map Int.ofNat) 10
      = [(List.range 19).map Int.ofNat] :=
  (splitIntoBatches_spec ((List.range 19).map Int.ofNat) 10 (by omega)).2.2.2

/-- Claim C2 (amended): when the episode window is large enough but some
requested episodes fall outside it and force is unset, _process_videos
reports empty scenes for exactly the unavailable requested episodes and then
returns: the remaining requested episodes are not split into batches and
receive no report in this invocation. -/
theorem processVideos_unavailable_stops (minEp batchSize epsToMatch : ℕ)
    (available : List ℤ)
    (batchScenes : List ℤ → Option (List (VideoKey × Scenes)))
    (videos : List VideoKey) (eps : List ℤ)
    (hne : videos ≠ [])
    (hsg : sameGroup videos = true)
    (heps : getEpisodesToProcess available videos false epsToMatch = some eps)
    (hlen : ¬ (eps.length < minEp))
    (hun : videos.filter (fun v => !decide (v.episode ∈ eps)) ≠ []) :
    processVideos minEp batchSize epsToMatch available batchScenes videos false
      = some [Report.emptyScenes
          (videos.filter (fun v => !decide (v.episode ∈ eps)))] := by
  obtain ⟨v0, rest, hv⟩ := List.exists_cons_of_ne_nil hne
  subst hv
  have hunlen : 0 < ((v0 :: rest).filter (fun v => !decide (v.episode ∈ eps))).length :=
    List.length_pos.mpr hun
  simp only [processVideos, hsg, heps, Bool.true_eq_false, if_false, if_neg hlen]
  rw [if_pos ⟨hunlen, trivial⟩]

/-- Claim C2 witness: a concrete request for episodes 1 and 5 of the same
group with only episodes 1 and 2 available and min_episode_number 2: the
trace is exactly one empty-scenes report for the unavailable episode 5. -/
theorem processVideos_unavailable_witness :
    processVideos 2 10 5 [1, 2] (fun _ => some [])
      [⟨1, "en", 1⟩, ⟨1, "en", 5⟩] false
      = some [Report.emptyScenes [⟨1, "en", 5⟩]] :=
  (processVideos_unavailable_stops 2 10 5 [1, 2] (fun _ => some [])
    [⟨1, "en", 1⟩, ⟨1, "en", 5⟩] [1, 2]
    (by decide) (by decide) (by decide) (by decide) (by decide)).trans (by decide)

/-- Claim C2 counterexample: same input as the witness.  The claim says
processing continues with the remaining requested episodes (they are split
into batches and processed); the trace instead holds nothing but the
empty-scenes report for the unavailable episode 5 — the available requested
episode 1 appears in no report of this invocation. -/
theorem processVideos_unavailable_counterexample :
    processVideos 2 10 5 [1, 2] (fun _ => some [])
      [⟨1, "en", 1⟩, ⟨1, "en", 5⟩] false
      = some [Report.emptyScenes [⟨1, "en", 5⟩]] ∧
    keysOfReport (Report.emptyScenes [⟨1, "en", 5⟩]) = [⟨1, "en", 5⟩] ∧
    ((⟨1, "en", 1⟩ : VideoKey) ∈ keysOfReport (Report.emptyScenes
      [(⟨1, "en", 5⟩ : VideoKey)])) = False := by
  refine ⟨?_, rfl, by decide⟩
  decide

end Matcher
